import Mathlib

/-!
# Computation graphs: a shallow embedding

This file embeds the computation-graph library (an append-only,
index-addressed DAG of `Constant` / `Variable` / `Sum` nodes with a
forward evaluator and a symbolic differentiator) and proves the
specification's claims about it.

Modelling conventions:
* the Rust handle type `Idx(usize)` is a natural number (written `Nat`
  throughout);
* scalar values (`f64` in the source) are integers: every scalar any
  claim mentions is 0.0, 1.0, 2.0 or 3.0, and the only operation the
  code performs on scalars is addition, on which `f64` is exact, so the
  exact-arithmetic fragment the claims live in is modelled faithfully;
* the `HashMap<Idx, f64>` value mapping is a function `Nat → Option ℤ`,
  with `insertV` the overwriting insert;
* the `HashMap<Idx, Idx>` derivative mapping is an association list built
  in insertion order (`DList`), read through `dLookup`;
* Rust indexing panics (`values[idx]`, `self.nodes[i]`, `derivatives[&of]`)
  become `Option` failure, so a run that would panic is `none`;
* `HashSet<Idx>` (the `wrt` set) is a `Finset Nat`;
* `sort_unstable_by_key(|index| index.0)` is `sortAsc`, an insertion sort
  on the underlying numbers (keys are naturals, so any correct sort
  produces the same list).
-/

abbrev VMap := Nat → Option ℤ

def emptyV : VMap := fun _ => none

def insertV (m : VMap) (k : Nat) (v : ℤ) : VMap :=
  fun i => if i = k then some v else m i

/-- Look every index of a list up in a partial map, failing if any lookup
fails (the Rust source indexes a `HashMap`, which panics on a missing
key). -/
def lookupAll (f : Nat → Option α) : List Nat → Option (List α)
  | [] => some []
  | c :: cs =>
    match f c, lookupAll f cs with
    | some v, some vs => some (v :: vs)
    | _, _ => none

inductive Node where
  | Constant : ℤ → Node
  | Variable : Node
  | Sum : List Nat → Node
deriving DecidableEq

/-- `Node::get_value`: `Constant` returns its stored scalar, `Variable`
looks up its own handle, `Sum` sums the looked-up values of its
children. -/
def Node.get_value (node : Node) (my_index : Nat) (values : VMap) : Option ℤ :=
  match node with
  | .Constant value => some value
  | .Variable => values my_index
  | .Sum children => (lookupAll values children).map List.sum

/-- `Node::derivative`: `Constant` differentiates to `Constant 0`,
`Variable` to `Constant 1` or `Constant 0` according to membership in
`wrt`, and `Sum` to the `Sum` of its children's derivative handles. -/
def Node.derivative (node : Node) (my_index : Nat) (wrt : Finset Nat)
    (derivatives : Nat → Option Nat) : Option Node :=
  match node with
  | .Constant _ => some (.Constant 0)
  | .Variable => some (if my_index ∈ wrt then .Constant 1 else .Constant 0)
  | .Sum children => (lookupAll derivatives children).map Node.Sum

/-- The child handles stored in a node (empty for `Constant` and
`Variable`). -/
def Node.children : Node → List Nat
  | .Sum cs => cs
  | _ => []

structure Subgraph where
  indices : List Nat
deriving DecidableEq

/-- Insert into an ascending list, keeping it ascending. -/
def insertAsc (x : Nat) : List Nat → List Nat
  | [] => [x]
  | y :: ys => if x ≤ y then x :: y :: ys else y :: insertAsc x ys

/-- Insertion sort by the underlying number: the embedding of
`sort_unstable_by_key(|index| index.0)`. -/
def sortAsc : List Nat → List Nat
  | [] => []
  | x :: xs => insertAsc x (sortAsc xs)

/-- `Subgraph::new`: collect the handles and sort them ascending. -/
def Subgraph.new (indices_unsorted : List Nat) : Subgraph :=
  ⟨sortAsc indices_unsorted⟩

structure Graph where
  nodes : List Node
deriving DecidableEq

/-- `Graph::push`: append the node, return the updated graph and the new
node's handle. -/
def Graph.push (g : Graph) (node : Node) : Graph × Nat :=
  (⟨g.nodes ++ [node]⟩, g.nodes.length)

/-- `Graph::as_subgraph`: all current handles, in ascending order. -/
def Graph.as_subgraph (g : Graph) : Subgraph :=
  ⟨List.range g.nodes.length⟩

/-- One iteration of the `evaluate_subgraph` loop: look up the node at
`index` (out-of-range is a panic, hence `none`), compute its value
against the mapping so far, and insert the result under `index`. -/
def Graph.evalStep (g : Graph) (result : VMap) (index : Nat) : Option VMap :=
  match g.nodes[index]? with
  | none => none
  | some node => (node.get_value index result).map (insertV result index)

/-- `Graph::evaluate_subgraph`: fold the evaluation step over the
subgraph's handles in their given order, starting from the initial
bindings. -/
def Graph.evaluate_subgraph (g : Graph) (subgraph : Subgraph)
    (variable_to_value : VMap) : Option VMap :=
  subgraph.indices.foldlM g.evalStep variable_to_value

/-- `Graph::evaluate`: evaluate the whole graph. -/
def Graph.evaluate (g : Graph) (variable_to_value : VMap) : Option VMap :=
  g.evaluate_subgraph g.as_subgraph variable_to_value

/-- The derivative mapping: original handle to derivative handle, in
insertion order. -/
abbrev DList := List (Nat × Nat)

/-- Read the derivative mapping (a `HashMap` index in the source, which
panics on a missing key, hence `Option`). -/
def dLookup : DList → Nat → Option Nat
  | [], _ => none
  | (k, v) :: rest, i => if i = k then some v else dLookup rest i

/-- One iteration of the `Graph::derivative` loop: differentiate the node
at `old_index` against the derivative mapping so far, push the new node,
and record `old_index ↦ new_index`. -/
def derivStep (wrt : Finset Nat) : Graph × DList → Nat → Option (Graph × DList)
  | (g, derivs), old_index =>
    match g.nodes[old_index]? with
    | none => none
    | some node =>
      match node.derivative old_index wrt (dLookup derivs) with
      | none => none
      | some new_node =>
        some ((g.push new_node).1, derivs ++ [(old_index, (g.push new_node).2)])

/-- The `for old_index in 0..self.nodes.len()` loop of `Graph::derivative`
(the range is captured before the loop body starts appending). -/
def Graph.derivPass (g : Graph) (wrt : Finset Nat) : Option (Graph × DList) :=
  (List.range g.nodes.length).foldlM (derivStep wrt) (g, [])

/-- `Graph::derivative`: run the pass, then return the derivative handle
of `of`, the subgraph of all newly created handles (sorted), and the
grown graph. -/
def Graph.derivative (g : Graph) (of : Nat) (wrt : Finset Nat) :
    Option (Nat × Subgraph × Graph) :=
  match g.derivPass wrt with
  | none => none
  | some (g', derivs) =>
    match dLookup derivs of with
    | none => none
    | some dOf => some (dOf, Subgraph.new (derivs.map Prod.snd), g')

/-- Well-formed construction: every node's children are handles that
already existed when the node was appended, i.e. strictly smaller than
its own handle. -/
def Graph.WellFormed (g : Graph) : Prop :=
  ∀ i, (hi : i < g.nodes.length) → ∀ c ∈ (g.nodes[i]).children, c < i

/-- The initial bindings cover every `Variable` handle of the graph. -/
def Graph.VarCovered (g : Graph) (init : VMap) : Prop :=
  ∀ i, (hi : i < g.nodes.length) → g.nodes[i] = Node.Variable → (init i).isSome

instance (g : Graph) : Decidable g.WellFormed :=
  decidable_of_iff (∀ i : Fin g.nodes.length, ∀ c ∈ (g.nodes.get i).children, c < i.1)
    ⟨fun h i hi c hc => h ⟨i, hi⟩ c hc, fun h i c hc => h i.1 i.2 c hc⟩

instance (g : Graph) (init : VMap) : Decidable (g.VarCovered init) :=
  decidable_of_iff
    (∀ i : Fin g.nodes.length, g.nodes.get i = Node.Variable → (init i.1).isSome)
    ⟨fun h i hi hv => h ⟨i, hi⟩ hv, fun h i hv => h i.1 i.2 hv⟩

/- The doctest graph: `a = Constant(1.0)`, `b = Variable`,
`c = Sum(a, b)`, built by successive pushes. -/

def gEmpty : Graph := ⟨[]⟩
def pushA : Graph × Nat := gEmpty.push (Node.Constant 1)
def pushB : Graph × Nat := pushA.1.push Node.Variable
def pushC : Graph × Nat := pushB.1.push (Node.Sum [pushA.2, pushB.2])
def gC : Graph := pushC.1

/- Concrete data used to instantiate the general theorems: the bindings
`b ↦ 2.0` for the doctest graph, the value mapping its evaluation
produces, the graph and subgraph its differentiation produces, and a
one-`Variable` graph. -/

def initBC : VMap := insertV emptyV 1 2

def mEx : VMap := insertV (insertV (insertV initBC 0 1) 1 2) 2 3

def vEx : VMap := insertV (insertV emptyV 0 1) 1 2

def gDC : Graph :=
  ⟨[Node.Constant 1, Node.Variable, Node.Sum [0, 1],
    Node.Constant 0, Node.Constant 1, Node.Sum [3, 4]]⟩

def sgDC : Subgraph := ⟨[3, 4, 5]⟩

def gV : Graph := ⟨[Node.Variable]⟩

/-! ## Helper lemmas -/

theorem insertV_self (m : VMap) (k : Nat) (v : ℤ) : insertV m k v k = some v := by
  simp [insertV]

theorem insertV_isSome {m : VMap} {i : Nat} (k : Nat) (v : ℤ) (h : (m i).isSome) :
    (insertV m k v i).isSome := by
  unfold insertV
  by_cases hik : i = k <;> simp [hik, h]

theorem lookupAll_isSome {f : Nat → Option α} :
    ∀ {l : List Nat}, (∀ c ∈ l, (f c).isSome) → (lookupAll f l).isSome
  | [], _ => by simp [lookupAll]
  | c :: cs, h => by
    have hc := h c (by simp)
    have hcs := lookupAll_isSome (f := f) (l := cs) (fun x hx => h x (by simp [hx]))
    unfold lookupAll
    cases hfc : f c with
    | none => rw [hfc] at hc; simp at hc
    | some v =>
      cases hall : lookupAll f cs with
      | none => rw [hall] at hcs; simp at hcs
      | some vs => simp

theorem lookupAll_of_forall₂ {f : Nat → Option α} {l : List Nat} {vs : List α}
    (h : List.Forall₂ (fun c v => f c = some v) l vs) : lookupAll f l = some vs := by
  induction h with
  | nil => rfl
  | cons hcv _ ih => unfold lookupAll; rw [hcv, ih]

theorem lookupAll_congr {f f' : Nat → Option α} :
    ∀ {l : List Nat}, (∀ c ∈ l, f c = f' c) → lookupAll f l = lookupAll f' l
  | [], _ => rfl
  | c :: cs, h => by
    unfold lookupAll
    rw [h c (by simp), lookupAll_congr (fun x hx => h x (by simp [hx]))]

theorem insertAsc_perm (x : Nat) : ∀ l : List Nat, (insertAsc x l).Perm (x :: l)
  | [] => List.Perm.refl _
  | y :: ys => by
    unfold insertAsc
    split
    · exact List.Perm.refl _
    · exact ((insertAsc_perm x ys).cons y).trans (List.Perm.swap x y ys)

theorem sortAsc_perm : ∀ l : List Nat, (sortAsc l).Perm l
  | [] => List.Perm.refl _
  | x :: xs => (insertAsc_perm x (sortAsc xs)).trans ((sortAsc_perm xs).cons x)

theorem insertAsc_sorted {x : Nat} :
    ∀ {l : List Nat}, l.Sorted (· ≤ ·) → (insertAsc x l).Sorted (· ≤ ·)
  | [], _ => by simp [insertAsc]
  | y :: ys, h => by
    rw [List.sorted_cons] at h
    unfold insertAsc
    split
    · next hxy =>
      rw [List.sorted_cons]
      refine ⟨?_, by rw [List.sorted_cons]; exact h⟩
      intro b hb
      rcases List.mem_cons.1 hb with rfl | hb'
      · exact hxy
      · exact le_trans hxy (h.1 b hb')
    · next hxy =>
      push_neg at hxy
      rw [List.sorted_cons]
      constructor
      · intro b hb
        have hb2 := (insertAsc_perm x ys).mem_iff.1 hb
        rcases List.mem_cons.1 hb2 with rfl | hb'
        · exact le_of_lt hxy
        · exact h.1 b hb'
      · exact insertAsc_sorted h.2

theorem sortAsc_sorted : ∀ l : List Nat, (sortAsc l).Sorted (· ≤ ·)
  | [] => by simp [sortAsc]
  | x :: xs => insertAsc_sorted (sortAsc_sorted xs)

theorem sortAsc_eq_of_sorted : ∀ {l : List Nat}, l.Sorted (· ≤ ·) → sortAsc l = l
  | [], _ => rfl
  | x :: xs, h => by
    rw [List.sorted_cons] at h
    unfold sortAsc
    rw [sortAsc_eq_of_sorted h.2]
    cases xs with
    | nil => rfl
    | cons y ys =>
      unfold insertAsc
      rw [if_pos (h.1 y (by simp))]

theorem mem_range'_bounds : ∀ (m k a : Nat), a ∈ List.range' k m → k ≤ a ∧ a < k + m
  | 0, _, _, h => by simp [List.range'] at h
  | m + 1, k, a, h => by
    rcases List.mem_cons.1 h with rfl | h'
    · omega
    · have := mem_range'_bounds m (k + 1) a h'
      omega

theorem range'_sorted_lt : ∀ (m k : Nat), (List.range' k m).Sorted (· < ·)
  | 0, _ => List.Pairwise.nil
  | m + 1, k => by
    rw [show List.range' k (m + 1) = k :: List.range' (k + 1) m from rfl, List.sorted_cons]
    exact ⟨fun b hb => by have := mem_range'_bounds m (k + 1) b hb; omega,
      range'_sorted_lt m (k + 1)⟩

theorem range'_sorted_le (m k : Nat) : (List.range' k m).Sorted (· ≤ ·) :=
  (range'_sorted_lt m k).imp le_of_lt

theorem range'_nodup (m k : Nat) : (List.range' k m).Nodup :=
  (range'_sorted_lt m k).imp Nat.ne_of_lt

/-! ## Evaluation lemmas -/

theorem evaluate_subgraph_nil (g : Graph) (init : VMap) :
    g.evaluate_subgraph ⟨[]⟩ init = some init := rfl

theorem evaluate_subgraph_cons (g : Graph) (a : Nat) (t : List Nat) (init : VMap) :
    g.evaluate_subgraph ⟨a :: t⟩ init =
      (g.evalStep init a).bind (fun acc => g.evaluate_subgraph ⟨t⟩ acc) := rfl

theorem evaluate_subgraph_append (g : Graph) (l₁ l₂ : List Nat) (init : VMap) :
    g.evaluate_subgraph ⟨l₁ ++ l₂⟩ init =
      (g.evaluate_subgraph ⟨l₁⟩ init).bind (fun acc => g.evaluate_subgraph ⟨l₂⟩ acc) := by
  induction l₁ generalizing init with
  | nil => rfl
  | cons a t ih =>
    rw [List.cons_append, evaluate_subgraph_cons, evaluate_subgraph_cons]
    cases g.evalStep init a with
    | none => rfl
    | some acc => exact ih acc

theorem evalStep_eq_some {g : Graph} {init acc : VMap} {a : Nat}
    (h : g.evalStep init a = some acc) :
    ∃ node v, g.nodes[a]? = some node ∧ node.get_value a init = some v ∧
      acc = insertV init a v := by
  unfold Graph.evalStep at h
  cases hn : g.nodes[a]? with
  | none =>
    simp only [hn] at h
    exact Option.noConfusion h
  | some node =>
    simp only [hn] at h
    cases hv : node.get_value a init with
    | none =>
      simp only [hv, Option.map_none'] at h
      exact Option.noConfusion h
    | some v =>
      simp only [hv, Option.map_some', Option.some.injEq] at h
      exact ⟨node, v, rfl, hv, h.symm⟩

theorem eval_keeps_isSome (g : Graph) :
    ∀ (l : List Nat) (init m : VMap), g.evaluate_subgraph ⟨l⟩ init = some m →
      ∀ j, (init j).isSome → (m j).isSome
  | [], init, m, hm, j, hj => by
    rw [evaluate_subgraph_nil] at hm
    injection hm with hm'
    rw [← hm']
    exact hj
  | a :: t, init, m, hm, j, hj => by
    rw [evaluate_subgraph_cons] at hm
    cases hstep : g.evalStep init a with
    | none => rw [hstep] at hm; cases hm
    | some acc =>
      rw [hstep] at hm
      obtain ⟨node, v, -, -, rfl⟩ := evalStep_eq_some hstep
      exact eval_keeps_isSome g t _ m hm j (insertV_isSome a v hj)

theorem eval_mem_isSome (g : Graph) :
    ∀ (l : List Nat) (init m : VMap), g.evaluate_subgraph ⟨l⟩ init = some m →
      ∀ h ∈ l, (m h).isSome
  | [], _, _, _, h, hmem => by cases hmem
  | a :: t, init, m, hm, h, hmem => by
    rw [evaluate_subgraph_cons] at hm
    cases hstep : g.evalStep init a with
    | none => rw [hstep] at hm; cases hm
    | some acc =>
      rw [hstep] at hm
      rcases List.mem_cons.1 hmem with rfl | hmem'
      · obtain ⟨node, v, -, -, rfl⟩ := evalStep_eq_some hstep
        exact eval_keeps_isSome g t _ m hm h (by rw [insertV_self]; rfl)
      · exact eval_mem_isSome g t acc m hm h hmem'

theorem eval_nodes_agree (g₁ g₂ : Graph) :
    ∀ (l : List Nat) (init : VMap), (∀ i ∈ l, g₁.nodes[i]? = g₂.nodes[i]?) →
      g₁.evaluate_subgraph ⟨l⟩ init = g₂.evaluate_subgraph ⟨l⟩ init
  | [], _, _ => rfl
  | a :: t, init, hag => by
    rw [evaluate_subgraph_cons, evaluate_subgraph_cons]
    have hstep : g₁.evalStep init a = g₂.evalStep init a := by
      unfold Graph.evalStep
      rw [hag a (by simp)]
    rw [hstep]
    cases g₂.evalStep init a with
    | none => rfl
    | some acc => exact eval_nodes_agree g₁ g₂ t acc (fun i hi => hag i (by simp [hi]))

/-! ## Differentiation-pass lemmas -/

theorem derivStep_eq_some {wrt : Finset Nat} {g : Graph} {derivs : DList} {k : Nat}
    {out : Graph × DList} (h : derivStep wrt (g, derivs) k = some out) :
    ∃ node new_node, g.nodes[k]? = some node ∧
      node.derivative k wrt (dLookup derivs) = some new_node ∧
      out = (⟨g.nodes ++ [new_node]⟩, derivs ++ [(k, g.nodes.length)]) := by
  unfold derivStep at h
  cases hn : g.nodes[k]? with
  | none =>
    simp only [hn] at h
    exact Option.noConfusion h
  | some node =>
    simp only [hn] at h
    cases hd : node.derivative k wrt (dLookup derivs) with
    | none =>
      simp only [hd] at h
      exact Option.noConfusion h
    | some new_node =>
      simp only [hd, Option.some.injEq] at h
      exact ⟨node, new_node, rfl, hd, h.symm⟩

theorem derivFold_spec {wrt : Finset Nat} :
    ∀ (m k : Nat) (g : Graph) (derivs : DList) (g₂ : Graph) (derivs₂ : DList),
      (List.range' k m).foldlM (derivStep wrt) (g, derivs) = some (g₂, derivs₂) →
      (∃ ext : List Node, g₂.nodes = g.nodes ++ ext ∧ ext.length = m) ∧
      derivs₂ = derivs ++ (List.range' k m).zip (List.range' g.nodes.length m)
  | 0, k, g, derivs, g₂, derivs₂, h => by
    rw [show List.range' k 0 = [] from rfl] at h
    injection h with h'
    injection h' with h₁ h₂
    subst h₁; subst h₂
    exact ⟨⟨[], by simp, rfl⟩, by simp [List.zip]⟩
  | m + 1, k, g, derivs, g₂, derivs₂, h => by
    rw [show List.range' k (m + 1) = k :: List.range' (k + 1) m from rfl,
      List.foldlM_cons] at h
    cases hstep : derivStep wrt (g, derivs) k with
    | none => rw [hstep] at h; cases h
    | some out =>
      rw [hstep] at h
      obtain ⟨node, new_node, -, -, rfl⟩ := derivStep_eq_some hstep
      obtain ⟨⟨ext, hext, hlen⟩, hderivs⟩ :=
        derivFold_spec m (k + 1) ⟨g.nodes ++ [new_node]⟩ (derivs ++ [(k, g.nodes.length)])
          g₂ derivs₂ h
      constructor
      · exact ⟨new_node :: ext, by simp [hext], by simp [hlen]⟩
      · rw [hderivs]
        rw [show (⟨g.nodes ++ [new_node]⟩ : Graph).nodes.length = g.nodes.length + 1 by simp]
        rw [show List.range' k (m + 1) = k :: List.range' (k + 1) m from rfl,
          show List.range' g.nodes.length (m + 1) =
            g.nodes.length :: List.range' (g.nodes.length + 1) m from rfl]
        simp

theorem dLookup_cons (k v : Nat) (rest : DList) (i : Nat) :
    dLookup ((k, v) :: rest) i = if i = k then some v else dLookup rest i := rfl

theorem dLookup_zip_range' :
    ∀ (m k L j : Nat), j < m →
      dLookup ((List.range' k m).zip (List.range' L m)) (k + j) = some (L + j)
  | 0, _, _, j, h => absurd h (by omega)
  | m + 1, k, L, j, h => by
    rw [show (List.range' k (m + 1)).zip (List.range' L (m + 1)) =
      (k, L) :: (List.range' (k + 1) m).zip (List.range' (L + 1) m) from rfl]
    rw [dLookup_cons]
    by_cases hj : j = 0
    · subst hj; simp
    · rw [if_neg (show ¬(k + j = k) by omega)]
      have hrec := dLookup_zip_range' m (k + 1) (L + 1) (j - 1) (by omega)
      rw [show (k + 1) + (j - 1) = k + j by omega] at hrec
      rw [hrec]
      simp only [Option.some.injEq]
      omega

theorem dLookup_eq_some_mem : ∀ {l : DList} {a b : Nat}, dLookup l a = some b → (a, b) ∈ l
  | [], _, _, h => by cases h
  | (k, v) :: rest, a, b, h => by
    rw [dLookup_cons] at h
    by_cases hak : a = k
    · rw [if_pos hak] at h
      injection h with h'
      subst hak; subst h'
      exact List.mem_cons_self _ _
    · rw [if_neg hak] at h
      exact List.mem_cons_of_mem _ (dLookup_eq_some_mem h)

theorem mem_zip_range' :
    ∀ (m k L : Nat) (a b : Nat), (a, b) ∈ (List.range' k m).zip (List.range' L m) →
      b = L + (a - k) ∧ k ≤ a ∧ a < k + m
  | 0, _, _, _, _, h => by simp [List.range', List.zip] at h
  | m + 1, k, L, a, b, h => by
    rw [show (List.range' k (m + 1)).zip (List.range' L (m + 1)) =
      (k, L) :: (List.range' (k + 1) m).zip (List.range' (L + 1) m) from rfl] at h
    rcases List.mem_cons.1 h with heq | h'
    · injection heq with h₁ h₂
      subst h₁; subst h₂
      refine ⟨by omega, by omega, by omega⟩
    · have := mem_zip_range' m (k + 1) (L + 1) a b h'
      refine ⟨by omega, by omega, by omega⟩

theorem map_snd_zip_range' : ∀ (m k L : Nat),
    ((List.range' k m).zip (List.range' L m)).map Prod.snd = List.range' L m
  | 0, _, _ => rfl
  | m + 1, k, L => by
    rw [show (List.range' k (m + 1)).zip (List.range' L (m + 1)) =
      (k, L) :: (List.range' (k + 1) m).zip (List.range' (L + 1) m) from rfl]
    rw [show List.range' L (m + 1) = L :: List.range' (L + 1) m from rfl]
    rw [List.map_cons, map_snd_zip_range' m (k + 1) (L + 1)]

theorem map_fst_zip_range' : ∀ (m k L : Nat),
    ((List.range' k m).zip (List.range' L m)).map Prod.fst = List.range' k m
  | 0, _, _ => rfl
  | m + 1, k, L => by
    rw [show (List.range' k (m + 1)).zip (List.range' L (m + 1)) =
      (k, L) :: (List.range' (k + 1) m).zip (List.range' (L + 1) m) from rfl]
    rw [show List.range' k (m + 1) = k :: List.range' (k + 1) m from rfl]
    rw [List.map_cons, map_fst_zip_range' m (k + 1) (L + 1)]

theorem derivPass_eq_some {g : Graph} {wrt : Finset Nat} {g₂ : Graph} {derivs₂ : DList}
    (h : g.derivPass wrt = some (g₂, derivs₂)) :
    (∃ ext : List Node, g₂.nodes = g.nodes ++ ext ∧ ext.length = g.nodes.length) ∧
    derivs₂ =
      (List.range' 0 g.nodes.length).zip (List.range' g.nodes.length g.nodes.length) := by
  unfold Graph.derivPass at h
  rw [List.range_eq_range'] at h
  have hfold := derivFold_spec g.nodes.length 0 g [] g₂ derivs₂ h
  simpa using hfold

theorem derivative_eq_some {g : Graph} {of : Nat} {wrt : Finset Nat} {dOf : Nat}
    {sg : Subgraph} {g₂ : Graph} (h : g.derivative of wrt = some (dOf, sg, g₂)) :
    ∃ derivs : DList, g.derivPass wrt = some (g₂, derivs) ∧
      dLookup derivs of = some dOf ∧ sg = Subgraph.new (derivs.map Prod.snd) := by
  unfold Graph.derivative at h
  cases hp : g.derivPass wrt with
  | none =>
    simp only [hp] at h
    exact Option.noConfusion h
  | some out =>
    obtain ⟨g', derivs⟩ := out
    simp only [hp] at h
    cases hl : dLookup derivs of with
    | none =>
      simp only [hl] at h
      exact Option.noConfusion h
    | some d =>
      simp only [hl, Option.some.injEq] at h
      injection h with h1 h23
      injection h23 with h2 h3
      subst h1
      subst h2
      subst h3
      exact ⟨derivs, rfl, hl, rfl⟩

/-- Everything `Graph.derivative` returns, made explicit: on a graph of
`n` nodes the pass appends `n` derivative nodes, the derivative mapping
is the graph of `h ↦ n + h` over `h < n`, the returned handle is
`n + of`, and the returned subgraph is `[n, …, 2n − 1]`. -/
theorem derivative_parts {g : Graph} {of : Nat} {wrt : Finset Nat} {dOf : Nat}
    {sg : Subgraph} {g₂ : Graph} (h : g.derivative of wrt = some (dOf, sg, g₂)) :
    (∃ ext : List Node, g₂.nodes = g.nodes ++ ext ∧ ext.length = g.nodes.length) ∧
    sg.indices = List.range' g.nodes.length g.nodes.length ∧
    dOf = g.nodes.length + of ∧ of < g.nodes.length ∧
    ∃ derivs : DList, g.derivPass wrt = some (g₂, derivs) ∧
      derivs =
        (List.range' 0 g.nodes.length).zip
          (List.range' g.nodes.length g.nodes.length) := by
  obtain ⟨derivs, hpass, hlook, hsub⟩ := derivative_eq_some h
  obtain ⟨hext, hderivs⟩ := derivPass_eq_some hpass
  have hmem := dLookup_eq_some_mem (hderivs ▸ hlook)
  have hbounds := mem_zip_range' g.nodes.length 0 g.nodes.length of dOf hmem
  refine ⟨hext, ?_, by omega, by omega, derivs, hpass, hderivs⟩
  rw [hsub]
  show sortAsc (derivs.map Prod.snd) = _
  rw [hderivs, map_snd_zip_range']
  exact sortAsc_eq_of_sorted (range'_sorted_le _ _)

/-! ## Totality of ascending-order evaluation on well-formed graphs -/

theorem eval_range'_total (g : Graph) (hwf : g.WellFormed) :
    ∀ (m k : Nat) (acc : VMap), k + m ≤ g.nodes.length →
      (∀ j, j < k → (acc j).isSome) →
      (∀ j, (hj : j < g.nodes.length) → g.nodes[j] = Node.Variable → (acc j).isSome) →
      ∃ acc', (List.range' k m).foldlM g.evalStep acc = some acc' ∧
        ∀ j, j < k + m → (acc' j).isSome
  | 0, k, acc, _, hlt, _ => ⟨acc, by simp, fun j hj => hlt j (by omega)⟩
  | m + 1, k, acc, hkm, hlt, hvar => by
    have hk : k < g.nodes.length := by omega
    have hnode : g.nodes[k]? = some (g.nodes[k]) := List.getElem?_eq_getElem hk
    have hval : ∃ v, (g.nodes[k]).get_value k acc = some v := by
      cases hcase : g.nodes[k] with
      | Constant c => exact ⟨c, rfl⟩
      | Variable =>
        obtain ⟨v, hv⟩ := Option.isSome_iff_exists.1 (hvar k hk hcase)
        exact ⟨v, hv⟩
      | Sum cs =>
        have hch : ∀ c ∈ cs, c < k := by
          have hw := hwf k hk
          rw [hcase] at hw
          simpa [Node.children] using hw
        obtain ⟨vs, hvs⟩ := Option.isSome_iff_exists.1
          (lookupAll_isSome (f := acc) (l := cs) (fun c hc => hlt c (hch c hc)))
        refine ⟨vs.sum, ?_⟩
        show (lookupAll acc cs).map List.sum = some vs.sum
        rw [hvs]
        rfl
    obtain ⟨v, hv⟩ := hval
    have hstep : g.evalStep acc k = some (insertV acc k v) := by
      unfold Graph.evalStep
      simp only [hnode]
      rw [hv]
      rfl
    obtain ⟨acc', hfold, hsome⟩ := eval_range'_total g hwf m (k + 1) (insertV acc k v)
      (by omega)
      (fun j hj => by
        by_cases hjk : j = k
        · subst hjk
          rw [insertV_self]
          rfl
        · exact insertV_isSome k v (hlt j (by omega)))
      (fun j hj hvj => insertV_isSome k v (hvar j hj hvj))
    refine ⟨acc', ?_, fun j hj => hsome j (by omega)⟩
    rw [show List.range' k (m + 1) = k :: List.range' (k + 1) m from rfl, List.foldlM_cons,
      hstep]
    exact hfold

/-! ## The claims -/

/-- C1: for every graph, subgraph and initial bindings, when
`evaluate_subgraph` returns a mapping, that mapping has an entry for
every handle appearing in the subgraph; and the evaluator processes the
subgraph's handles in their given order, for each handle storing the
result of that node's `get_value` applied to the mapping accumulated so
far, the insert overwriting any pre-seeded entry for that handle (last
write wins, by the definition of `insertV`). -/
theorem evaluate_subgraph_spec :
    (∀ (g : Graph) (sg : Subgraph) (init m : VMap),
        g.evaluate_subgraph sg init = some m → ∀ h ∈ sg.indices, (m h).isSome) ∧
    (∀ (g : Graph) (a : Nat) (t : List Nat) (init : VMap),
        g.evaluate_subgraph ⟨a :: t⟩ init =
          (g.nodes[a]?.bind (fun node => node.get_value a init)).bind
            (fun v => g.evaluate_subgraph ⟨t⟩ (insertV init a v))) := by
  constructor
  · intro g sg init m hm
    obtain ⟨l⟩ := sg
    exact eval_mem_isSome g l init m hm
  · intro g a t init
    rw [evaluate_subgraph_cons]
    unfold Graph.evalStep
    cases g.nodes[a]? with
    | none => rfl
    | some node =>
      show ((node.get_value a init).map (insertV init a)).bind
          (fun acc => g.evaluate_subgraph ⟨t⟩ acc) =
        (node.get_value a init).bind
          (fun v => g.evaluate_subgraph ⟨t⟩ (insertV init a v))
      cases node.get_value a init with
      | none => rfl
      | some v => rfl

/-- C1 witness: the doctest graph, subgraph `[0, 1, 2]` with bindings
`b ↦ 2`, evaluates to `mEx`, which has an entry at handle `2`. -/
theorem evaluate_subgraph_spec_witness : (mEx 2).isSome :=
  evaluate_subgraph_spec.1 gC ⟨[0, 1, 2]⟩ initBC mEx rfl 2 (by decide)

/-- C2: when `derivative` returns, it has appended exactly one node per
pre-existing node (the graph doubles in size), the returned subgraph has
exactly one handle per old node, and the derivative mapping was built by
visiting the old handles in ascending order (`map Prod.fst` is
`range n`), is total on old handles and is injective: one shared
derivative node per original handle. -/
theorem differentiate_structure :
    ∀ (g : Graph) (of : Nat) (wrt : Finset Nat) (dOf : Nat) (sg : Subgraph) (g₂ : Graph),
      g.derivative of wrt = some (dOf, sg, g₂) →
      g₂.nodes.length = g.nodes.length + g.nodes.length ∧
      sg.indices.length = g.nodes.length ∧
      ∃ derivs : DList, g.derivPass wrt = some (g₂, derivs) ∧
        derivs.map Prod.fst = List.range g.nodes.length ∧
        (∀ h, h < g.nodes.length → dLookup derivs h = some (g.nodes.length + h)) ∧
        (∀ h₁ h₂, h₁ < g.nodes.length → h₂ < g.nodes.length →
          dLookup derivs h₁ = dLookup derivs h₂ → h₁ = h₂) := by
  intro g of wrt dOf sg g₂ h
  obtain ⟨⟨ext, hext, hlen⟩, hsg, -, -, derivs, hpass, hderivs⟩ := derivative_parts h
  have htot : ∀ h', h' < g.nodes.length →
      dLookup derivs h' = some (g.nodes.length + h') := by
    intro h' hh
    rw [hderivs]
    have hz := dLookup_zip_range' g.nodes.length 0 g.nodes.length h' hh
    simpa using hz
  refine ⟨by rw [hext]; simp [hlen], by rw [hsg]; simp, derivs, hpass, ?_, htot, ?_⟩
  · rw [hderivs, map_fst_zip_range', List.range_eq_range']
  · intro h₁ h₂ hh₁ hh₂ heq
    rw [htot h₁ hh₁, htot h₂ hh₂] at heq
    injection heq with heq'
    omega

/-- C2 witness: differentiating the three-node doctest graph at `c`
with respect to `{b}`. -/
theorem differentiate_structure_witness :
    gDC.nodes.length = gC.nodes.length + gC.nodes.length ∧
    sgDC.indices.length = gC.nodes.length ∧
    ∃ derivs : DList, gC.derivPass {1} = some (gDC, derivs) ∧
      derivs.map Prod.fst = List.range gC.nodes.length ∧
      (∀ h, h < gC.nodes.length → dLookup derivs h = some (gC.nodes.length + h)) ∧
      (∀ h₁ h₂, h₁ < gC.nodes.length → h₂ < gC.nodes.length →
        dLookup derivs h₁ = dLookup derivs h₂ → h₁ = h₂) :=
  differentiate_structure gC 2 {1} 5 sgDC gDC (by decide)

/-- C3: the value rules of the built-in node kinds: `Constant c` returns
`c` (for any mapping — it reads no entry at all), `Variable` returns the
entry under its own handle, and `Sum children` returns the sum of the
entries under its children's handles, its result depending only on
those entries. -/
theorem get_value_rules :
    (∀ (c : ℤ) (h : Nat) (values : VMap), (Node.Constant c).get_value h values = some c) ∧
    (∀ (h : Nat) (values : VMap), Node.Variable.get_value h values = values h) ∧
    (∀ (cs : List Nat) (h : Nat) (values : VMap) (vs : List ℤ),
        List.Forall₂ (fun c v => values c = some v) cs vs →
        (Node.Sum cs).get_value h values = some vs.sum) ∧
    (∀ (c : ℤ) (h : Nat) (v₁ v₂ : VMap),
        (Node.Constant c).get_value h v₁ = (Node.Constant c).get_value h v₂) ∧
    (∀ (cs : List Nat) (h : Nat) (v₁ v₂ : VMap), (∀ c ∈ cs, v₁ c = v₂ c) →
        (Node.Sum cs).get_value h v₁ = (Node.Sum cs).get_value h v₂) := by
  refine ⟨fun c h values => rfl, fun h values => rfl, ?_, fun c h v₁ v₂ => rfl, ?_⟩
  · intro cs h values vs hf
    show (lookupAll values cs).map List.sum = some vs.sum
    rw [lookupAll_of_forall₂ hf]
    rfl
  · intro cs h v₁ v₂ hagree
    show (lookupAll v₁ cs).map List.sum = (lookupAll v₂ cs).map List.sum
    rw [lookupAll_congr hagree]

/-- C3 witness: `Sum [0, 1]` over `0 ↦ 1, 1 ↦ 2` computes `1 + 2`, and
its value is unchanged by a binding at an unrelated handle. -/
theorem get_value_rules_witness :
    (Node.Sum [0, 1]).get_value 2 vEx = some ([(1 : ℤ), 2]).sum ∧
    (Node.Sum [0, 1]).get_value 2 vEx = (Node.Sum [0, 1]).get_value 2 (insertV vEx 5 9) :=
  ⟨get_value_rules.2.2.1 [0, 1] 2 vEx [1, 2]
      (List.Forall₂.cons (by decide) (List.Forall₂.cons (by decide) List.Forall₂.nil)),
   get_value_rules.2.2.2.2 [0, 1] 2 vEx (insertV vEx 5 9) (by decide)⟩

/-- C4: the derivative rules of the built-in node kinds: `Constant`
differentiates to `Constant 0`; `Variable` to `Constant 1` when its own
handle is in the wrt-set and `Constant 0` otherwise; `Sum children` to a
`Sum` whose children are, in the same order, the handles the derivative
mapping assigns to each original child. -/
theorem derivative_rules :
    (∀ (c : ℤ) (h : Nat) (wrt : Finset Nat) (d : Nat → Option Nat),
        (Node.Constant c).derivative h wrt d = some (Node.Constant 0)) ∧
    (∀ (h : Nat) (wrt : Finset Nat) (d : Nat → Option Nat), h ∈ wrt →
        Node.Variable.derivative h wrt d = some (Node.Constant 1)) ∧
    (∀ (h : Nat) (wrt : Finset Nat) (d : Nat → Option Nat), h ∉ wrt →
        Node.Variable.derivative h wrt d = some (Node.Constant 0)) ∧
    (∀ (cs : List Nat) (h : Nat) (wrt : Finset Nat) (d : Nat → Option Nat) (ds : List Nat),
        List.Forall₂ (fun c dc => d c = some dc) cs ds →
        (Node.Sum cs).derivative h wrt d = some (Node.Sum ds)) := by
  refine ⟨fun c h wrt d => rfl, ?_, ?_, ?_⟩
  · intro h wrt d hmem
    show some (if h ∈ wrt then Node.Constant 1 else Node.Constant 0) = _
    rw [if_pos hmem]
  · intro h wrt d hmem
    show some (if h ∈ wrt then Node.Constant 1 else Node.Constant 0) = _
    rw [if_neg hmem]
  · intro cs h wrt d ds hf
    show (lookupAll d cs).map Node.Sum = some (Node.Sum ds)
    rw [lookupAll_of_forall₂ hf]
    rfl

/-- C4 witness: a `Variable` in the wrt-set differentiates to
`Constant 1`, and a `Sum` maps its children through the derivative
mapping in order. -/
theorem derivative_rules_witness :
    Node.Variable.derivative 1 {1} (dLookup []) = some (Node.Constant 1) ∧
    (Node.Sum [0, 1]).derivative 2 {1} (dLookup [(0, 3), (1, 4)]) =
      some (Node.Sum [3, 4]) :=
  ⟨derivative_rules.2.1 1 {1} (dLookup []) (by decide),
   derivative_rules.2.2.2 [0, 1] 2 {1} (dLookup [(0, 3), (1, 4)]) [3, 4]
     (List.Forall₂.cons (by decide) (List.Forall₂.cons (by decide) List.Forall₂.nil))⟩

/-- C5: end-to-end doctest scenario: in the graph `a = Constant 1`,
`b = Variable`, `c = Sum (a, b)`, differentiating `c` with respect to
`{b}` returns a handle whose value, after evaluating the returned
subgraph with empty initial bindings, is `1`. -/
theorem derivative_scenario :
    ∃ (dOf : Nat) (sg : Subgraph) (g₂ : Graph),
      gC.derivative pushC.2 {pushB.2} = some (dOf, sg, g₂) ∧
      ((g₂.evaluate_subgraph sg emptyV).bind (fun m => m dOf)) = some 1 :=
  ⟨5, sgDC, gDC, by decide, by decide⟩

/-- C6: on every graph whose nodes only reference strictly smaller
handles (the append-only construction invariant), evaluating the full
subgraph in ascending order with bindings that cover every `Variable`
succeeds — no lookup ever fails — and produces an entry for every
handle. -/
theorem ascending_order_total :
    ∀ (g : Graph) (init : VMap), g.WellFormed → g.VarCovered init →
      ∃ m, g.evaluate_subgraph g.as_subgraph init = some m ∧
        ∀ j, j < g.nodes.length → (m j).isSome := by
  intro g init hwf hvar
  obtain ⟨acc', h1, h2⟩ := eval_range'_total g hwf g.nodes.length 0 init (by omega)
    (fun j hj => absurd hj (by omega)) (fun j hj hv => hvar j hj hv)
  refine ⟨acc', ?_, fun j hj => h2 j (by omega)⟩
  show (List.range g.nodes.length).foldlM g.evalStep init = some acc'
  rw [List.range_eq_range']
  exact h1

/-- C6 witness: the doctest graph is well formed, `b ↦ 2` covers its
only `Variable`, and full evaluation succeeds everywhere. -/
theorem ascending_order_total_witness :
    ∃ m, gC.evaluate_subgraph gC.as_subgraph initBC = some m ∧
      ∀ j, j < gC.nodes.length → (m j).isSome :=
  ascending_order_total gC initBC (by decide) (by decide)

/-- C7: a `Variable` handle in a subgraph makes the evaluation fail
exactly when the value mapping accumulated at the moment the `Variable`
is reached (initial bindings plus everything computed earlier in the
pass) has no entry for it; when an entry is present, the `Variable`
yields that bound value and the pass goes on from it. -/
theorem variable_binding :
    ∀ (g : Graph) (pre : List Nat) (h : Nat) (post : List Nat) (init acc : VMap),
      g.nodes[h]? = some Node.Variable →
      g.evaluate_subgraph ⟨pre⟩ init = some acc →
      ((acc h = none → g.evaluate_subgraph ⟨pre ++ h :: post⟩ init = none) ∧
       (∀ v, acc h = some v →
          g.evaluate_subgraph ⟨pre ++ h :: post⟩ init =
            g.evaluate_subgraph ⟨post⟩ (insertV acc h v))) := by
  intro g pre h post init acc hvar hpre
  have happ : g.evaluate_subgraph ⟨pre ++ h :: post⟩ init =
      g.evaluate_subgraph ⟨h :: post⟩ acc := by
    rw [evaluate_subgraph_append, hpre]
    rfl
  have hstep : g.evalStep acc h = (acc h).map (insertV acc h) := by
    unfold Graph.evalStep
    simp only [hvar]
    rfl
  constructor
  · intro hnone
    rw [happ, evaluate_subgraph_cons, hstep, hnone]
    rfl
  · intro v hv
    rw [happ, evaluate_subgraph_cons, hstep, hv]
    rfl

/-- C7 witness: a single unbound `Variable` fails to evaluate, and the
same `Variable` bound to `7` evaluates. -/
theorem variable_binding_witness :
    gV.evaluate_subgraph ⟨[] ++ 0 :: []⟩ emptyV = none ∧
    gV.evaluate_subgraph ⟨[] ++ 0 :: []⟩ (insertV emptyV 0 7) =
      gV.evaluate_subgraph ⟨[]⟩ (insertV (insertV emptyV 0 7) 0 7) :=
  ⟨(variable_binding gV [] 0 [] emptyV emptyV rfl rfl).1 rfl,
   (variable_binding gV [] 0 [] (insertV emptyV 0 7) (insertV emptyV 0 7) rfl rfl).2 7
     (by decide)⟩

/-- C8: both `Subgraph` invariants — no duplicate handles, ascending
order — hold for the subgraph of the whole graph and for the subgraph
returned by `derivative`. -/
theorem subgraph_invariants :
    ∀ g : Graph,
      (g.as_subgraph.indices.Nodup ∧ g.as_subgraph.indices.Sorted (· ≤ ·)) ∧
      (∀ (of : Nat) (wrt : Finset Nat) (dOf : Nat) (sg : Subgraph) (g₂ : Graph),
        g.derivative of wrt = some (dOf, sg, g₂) →
        sg.indices.Nodup ∧ sg.indices.Sorted (· ≤ ·)) := by
  intro g
  constructor
  · constructor
    · show (List.range g.nodes.length).Nodup
      exact List.nodup_range _
    · show (List.range g.nodes.length).Sorted (· ≤ ·)
      rw [List.range_eq_range']
      exact range'_sorted_le _ _
  · intro of wrt dOf sg g₂ h
    obtain ⟨-, hsg, -⟩ := derivative_parts h
    rw [hsg]
    exact ⟨range'_nodup _ _, range'_sorted_le _ _⟩

/-- C8 witness: the subgraph returned by differentiating the doctest
graph is duplicate-free and ascending. -/
theorem subgraph_invariants_witness :
    sgDC.indices.Nodup ∧ sgDC.indices.Sorted (· ≤ ·) :=
  (subgraph_invariants gC).2 2 {1} 5 sgDC gDC (by decide)

/-- C9: `derivative` only appends: every pre-existing handle still
refers to the same node afterwards, so evaluating any subgraph made of
pre-existing handles under the same initial bindings is unchanged. -/
theorem differentiate_frame :
    ∀ (g : Graph) (of : Nat) (wrt : Finset Nat) (dOf : Nat) (sg : Subgraph) (g₂ : Graph),
      g.derivative of wrt = some (dOf, sg, g₂) →
      (∀ h, h < g.nodes.length → g₂.nodes[h]? = g.nodes[h]?) ∧
      (∀ (sg' : Subgraph) (init : VMap), (∀ i ∈ sg'.indices, i < g.nodes.length) →
        g₂.evaluate_subgraph sg' init = g.evaluate_subgraph sg' init) := by
  intro g of wrt dOf sg g₂ h
  obtain ⟨⟨ext, hext, -⟩, -⟩ := derivative_parts h
  have hpre : ∀ h', h' < g.nodes.length → g₂.nodes[h']? = g.nodes[h']? := by
    intro h' hh
    rw [hext]
    exact List.getElem?_append_left hh
  refine ⟨hpre, ?_⟩
  intro sg' init hbound
  obtain ⟨l⟩ := sg'
  exact eval_nodes_agree g₂ g l init (fun i hi => hpre i (hbound i hi))

/-- C9 witness: after differentiating the doctest graph, handle `0`
still holds the same node. -/
theorem differentiate_frame_witness : gDC.nodes[0]? = gC.nodes[0]? :=
  (differentiate_frame gC 2 {1} 5 sgDC gDC (by decide)).1 0 (by decide)

/-- C10: on a graph of `n` nodes, the derivative mapping sends each old
handle `h < n` to the new handle `n + h`; the returned derivative handle
is `n + of`, and the returned subgraph is exactly the handles
`n, …, 2n − 1` in ascending order. -/
theorem differentiate_handles :
    ∀ (g : Graph) (of : Nat) (wrt : Finset Nat) (dOf : Nat) (sg : Subgraph) (g₂ : Graph),
      g.derivative of wrt = some (dOf, sg, g₂) →
      dOf = g.nodes.length + of ∧
      sg.indices = List.range' g.nodes.length g.nodes.length ∧
      (∀ (g' : Graph) (derivs : DList), g.derivPass wrt = some (g', derivs) →
        ∀ h, h < g.nodes.length → dLookup derivs h = some (g.nodes.length + h)) := by
  intro g of wrt dOf sg g₂ h
  obtain ⟨-, hsg, hdOf, -, -⟩ := derivative_parts h
  refine ⟨hdOf, hsg, ?_⟩
  intro g' derivs hp h' hh
  obtain ⟨-, hderivs⟩ := derivPass_eq_some hp
  rw [hderivs]
  have hz := dLookup_zip_range' g.nodes.length 0 g.nodes.length h' hh
  simpa using hz

/-- C10 witness: on the three-node doctest graph the derivative handle
of `c = 2` is `3 + 2 = 5` and the new subgraph is `[3, 4, 5]`. -/
theorem differentiate_handles_witness :
    (5 : Nat) = gC.nodes.length + 2 ∧
    sgDC.indices = List.range' gC.nodes.length gC.nodes.length :=
  ⟨(differentiate_handles gC 2 {1} 5 sgDC gDC (by decide)).1,
   (differentiate_handles gC 2 {1} 5 sgDC gDC (by decide)).2.1⟩
